import Mathlib

/-!
# PopupPositionSelector: a shallow embedding and its verified properties

The widget `PopupPositionSelector` (files `PopupPositionSelector.h` and
`PopupPositionSelector.cpp`) shows a miniature of the desktop's monitors and
lets the user click one of the four corners of a monitor.

Conventions of the embedding:

* C++ `int` is modelled by `Int`.  Signed overflow is undefined behaviour in
  C++, so the arithmetic is the mathematical one; where a result depends on the
  32-bit range of `int`, the range appears as an explicit hypothesis.
* `QPoint`, `QSize` and `QRect` follow the Qt 4 value classes: a `QRect` stores
  its two corner pixels `(x1, y1)` and `(x2, y2)`, so that
  `right = x + width - 1` and `bottom = y + height - 1`.
* `double` is IEEE-754 binary64 with round-to-nearest-even, every operation
  rounded once to binary64 (as with SSE2 arithmetic, no extended precision and
  no fused multiply-add); see `Dbl`.  Only finite values are represented; a
  division by zero has no value (`none`).
* Qt signals are recorded in a log (`emitted`), in the order of emission.
-/

namespace PopupPositionSelector

/-! ## Qt value classes -/

/-- Qt `QPoint`. -/
structure QPoint where
  x : Int
  y : Int
  deriving DecidableEq, Repr

/-- Qt `QSize`, fields `wd` and `ht`. -/
structure QSize where
  wd : Int
  ht : Int
  deriving DecidableEq, Repr

/-- Qt `QRect`: the top-left pixel `(x1, y1)` and the bottom-right pixel `(x2, y2)`. -/
structure QRect where
  x1 : Int
  y1 : Int
  x2 : Int
  y2 : Int
  deriving DecidableEq, Repr

namespace QRect

/-- The constructor `QRect(x, y, width, height)`. -/
def ofXYWH (x y w h : Int) : QRect := ⟨x, y, x + w - 1, y + h - 1⟩

/-- The method `setRect(x, y, width, height)`; it overwrites all four coordinates. -/
def setRect (_r : QRect) (x y w h : Int) : QRect := ⟨x, y, x + w - 1, y + h - 1⟩

def x (r : QRect) : Int := r.x1
def y (r : QRect) : Int := r.y1
def left (r : QRect) : Int := r.x1
def top (r : QRect) : Int := r.y1
def right (r : QRect) : Int := r.x2
def bottom (r : QRect) : Int := r.y2
def width (r : QRect) : Int := r.x2 - r.x1 + 1
def height (r : QRect) : Int := r.y2 - r.y1 + 1

def topLeft (r : QRect) : QPoint := ⟨r.x1, r.y1⟩
def topRight (r : QRect) : QPoint := ⟨r.x2, r.y1⟩
def bottomLeft (r : QRect) : QPoint := ⟨r.x1, r.y2⟩
def bottomRight (r : QRect) : QPoint := ⟨r.x2, r.y2⟩

def setWidth (r : QRect) (w : Int) : QRect := { r with x2 := r.x1 + w - 1 }
def setHeight (r : QRect) (h : Int) : QRect := { r with y2 := r.y1 + h - 1 }

def moveLeft (r : QRect) (pos : Int) : QRect := { r with x2 := r.x2 + (pos - r.x1), x1 := pos }
def moveTop (r : QRect) (pos : Int) : QRect := { r with y2 := r.y2 + (pos - r.y1), y1 := pos }
def moveRight (r : QRect) (pos : Int) : QRect := { r with x1 := r.x1 + (pos - r.x2), x2 := pos }
def moveBottom (r : QRect) (pos : Int) : QRect := { r with y1 := r.y1 + (pos - r.y2), y2 := pos }

def moveTopRight (r : QRect) (p : QPoint) : QRect := (r.moveRight p.x).moveTop p.y
def moveBottomLeft (r : QRect) (p : QPoint) : QRect := (r.moveLeft p.x).moveBottom p.y
def moveBottomRight (r : QRect) (p : QPoint) : QRect := (r.moveRight p.x).moveBottom p.y

/-- The method `contains(const QPoint &)` (with `proper = false`): a rectangle of
negative extent is normalised first, an empty one contains no point. -/
def contains (r : QRect) (p : QPoint) : Bool :=
  let l := if r.x2 < r.x1 - 1 then r.x2 else r.x1
  let rr := if r.x2 < r.x1 - 1 then r.x1 else r.x2
  if p.x < l ∨ p.x > rr then false
  else
    let t := if r.y2 < r.y1 - 1 then r.y2 else r.y1
    let b := if r.y2 < r.y1 - 1 then r.y1 else r.y2
    if p.y < t ∨ p.y > b then false else true

end QRect

/-- The 32-bit two's complement value kept by a conversion from `qint64` to `int`. -/
def toInt32 (v : Int) : Int := (v + 2147483648) % 4294967296 - 2147483648

/-- The method `QSize::scale(w, h, Qt::KeepAspectRatio)` of the Qt 4 library
(`qsize.cpp`): a size with a zero side takes the box; otherwise
`rw = h * wd / ht` is computed as a `qint64`, truncated towards zero, and the
result is `(rw, h)` when `rw <= w` and `(w, w * ht / wd)` when not. -/
def QSize.scaleKeepAspectRatio (sz : QSize) (w h : Int) : QSize :=
  if sz.wd = 0 ∨ sz.ht = 0 then ⟨w, h⟩
  else
    let rw := Int.tdiv (h * sz.wd) sz.ht
    if rw ≤ w then ⟨toInt32 rw, h⟩
    else ⟨w, toInt32 (Int.tdiv (w * sz.ht) sz.wd)⟩

/-! ## Double precision arithmetic -/

/-- A finite binary64 value `mant * 2 ^ exp`.  The exponent is not bounded: the
values of this program stay far from the overflow and subnormal ranges. -/
structure Dbl where
  mant : Int
  exp : Int
  deriving DecidableEq, Repr

namespace Dbl

/-- Number of binary digits of `p`, computed with `fuel` halvings. -/
def bitLen : Nat → Nat → Nat
  | 0, _ => 0
  | fuel + 1, p => if p = 0 then 0 else bitLen fuel (p / 2) + 1

/-- Significand of `p` rounded to 53 bits, ties to even, where `s` low bits are dropped. -/
def roundSig (p s : Nat) : Nat :=
  let q := p / 2 ^ s
  let r := p % 2 ^ s
  if 2 * r < 2 ^ s then q
  else if 2 ^ s < 2 * r then q + 1
  else if q % 2 = 0 then q else q + 1

/-- The binary64 value nearest to the exact value `m * 2 ^ e`. -/
def round (m e : Int) : Dbl :=
  let p := m.natAbs
  let s := bitLen p p - 53
  ⟨m.sign * (roundSig p s : Nat), e + s⟩

/-- Conversion of an `int` to `double`; exact, because an `int` has 32 bits. -/
def ofInt (n : Int) : Dbl := ⟨n, 0⟩

def mul (a b : Dbl) : Dbl := round (a.mant * b.mant) (a.exp + b.exp)

def add (a b : Dbl) : Dbl :=
  let e := min a.exp b.exp
  round (a.mant * 2 ^ (a.exp - e).toNat + b.mant * 2 ^ (b.exp - e).toNat) e

def sub (a b : Dbl) : Dbl :=
  let e := min a.exp b.exp
  round (a.mant * 2 ^ (a.exp - e).toNat - b.mant * 2 ^ (b.exp - e).toNat) e

/-- Division.  The quotient is computed with at least 55 significant bits and a
sticky bit, which determines the correctly rounded result.  A division by zero
has no finite value. -/
def div (a b : Dbl) : Option Dbl :=
  if b.mant = 0 then none
  else
    let d := b.mant.natAbs
    let k := bitLen d d + 55
    let n := a.mant.natAbs * 2 ^ k
    let sticky := if n % d = 0 then 0 else 1
    some (round (a.mant.sign * b.mant.sign * ((2 * (n / d) + sticky : Nat) : Int))
      (a.exp - b.exp - k - 1))

/-- Conversion of a `double` to `int`: the fractional part is discarded. -/
def toInt (a : Dbl) : Int :=
  if 0 ≤ a.exp then a.mant * 2 ^ a.exp.toNat else Int.tdiv a.mant (2 ^ (-a.exp).toNat)

end Dbl

/-! ## The anonymous namespace of `PopupPositionSelector.cpp` -/

/-- The constant `cornerFactor = 0.3`: the binary64 value nearest to three tenths,
`0x3FD3333333333333`. -/
def cornerFactor : Dbl := ⟨5404319552844595, -54⟩

/-- The value of `size` in `BuildCornerRects`. -/
def cornerSize (aSource : QRect) : Int :=
  if aSource.width > aSource.height then
    Dbl.toInt (Dbl.mul (Dbl.ofInt aSource.height) cornerFactor)
  else
    Dbl.toInt (Dbl.mul (Dbl.ofInt aSource.width) cornerFactor)

/-- The function `BuildCornerRects(aSource, aDest)`; the result lists
`aDest[0]`, `aDest[1]`, `aDest[2]`, `aDest[3]`. -/
def BuildCornerRects (aSource : QRect) : List QRect :=
  let size := cornerSize aSource
  let d0 := (aSource.setWidth size).setHeight size
  let d1 := d0.moveTopRight aSource.topRight
  let d2 := d0.moveBottomLeft aSource.bottomLeft
  let d3 := d0.moveBottomRight aSource.bottomRight
  [d0, d1, d2, d3]

/-! ## The data of the widget -/

/-- The struct `PopupPosition`; `-1` stands for "none". -/
structure PopupPosition where
  screen : Int
  corner : Int
  deriving DecidableEq, Repr

/-- The two signals of the class, with their argument. -/
inductive Signal where
  | cornerHovered (aPosition : PopupPosition)
  | positionChanged (aPosition : PopupPosition)
  deriving DecidableEq, Repr

/-- The two values of `Qt::CursorShape` that the widget sets. -/
inductive CursorShape where
  | ArrowCursor
  | PointingHandCursor
  deriving DecidableEq, Repr

/-- What the widget reads from `QApplication::desktop()`: `screenGeometry(i)` for
`i < numScreens()`, and `availableGeometry(screen)`. -/
structure Desktop where
  screenGeometry : List QRect
  availableGeometry : Int → QRect

/-- The tool window `m_previewWidget`; `geometry` is `none` until the widget sets it. -/
structure PreviewWidget where
  visible : Bool
  geometry : Option QRect
  deriving DecidableEq, Repr

/-- The members of `PopupPositionSelector`, the cursor of the widget, the number
of repaints requested with `update()` and the signals emitted so far. -/
structure State where
  m_previewWidget : PreviewWidget
  m_previewEnabled : Bool
  m_mousePosition : PopupPosition
  m_position : PopupPosition
  m_totalRect : QRect
  m_originalRects : List QRect
  m_screenRects : List QRect
  m_cornerRects : List QRect
  cursor : CursorShape
  updates : Nat
  emitted : List Signal
  deriving DecidableEq, Repr

/-- The default constructed `QRect()`. -/
def QRect.null : QRect := ⟨0, 0, -1, -1⟩

/-- The method `QVector<QRect>::resize(n)`: the first `n` elements are kept,
missing ones are default constructed. -/
def QVector.resize (v : List QRect) (n : Nat) : List QRect :=
  v.take n ++ List.replicate (n - v.length) QRect.null

/-- The read access `v[i]` of a `QVector`; `none` when `i` is not an index of `v`
(Qt asserts `0 <= i && i < size()`, the access is undefined otherwise). -/
def QVector.at? (v : List QRect) (i : Int) : Option QRect :=
  if 0 ≤ i ∧ i < v.length then v.get? i.toNat else none

/-! ## The constructor: the total rectangle -/

/-- The four local variables of the constructor. -/
structure Extent where
  smallestX : Int
  largestX : Int
  smallestY : Int
  largestY : Int
  deriving DecidableEq, Repr

/-- One iteration of the loop over the screens in the constructor. -/
def Extent.visit (e : Extent) (r : QRect) : Extent :=
  { smallestX := if r.x < e.smallestX then r.x else e.smallestX
    largestX := if r.right > e.largestX then r.right else e.largestX
    smallestY := if r.y < e.smallestY then r.y else e.smallestY
    largestY := if r.bottom > e.largestY then r.bottom else e.largestY }

/-- The loop of the constructor; all four variables start at `0`. -/
def desktopExtent (screens : List QRect) : Extent :=
  screens.foldl Extent.visit ⟨0, 0, 0, 0⟩

/-- The value given to `m_totalRect` by the constructor. -/
def totalRect (screens : List QRect) : QRect :=
  let e := desktopExtent screens
  QRect.null.setRect e.smallestX e.smallestY (e.largestX - e.smallestX) (e.largestY - e.smallestY)

/-! ## Layout -/

/-- The aspect-locked fit of the total rectangle into a box, as computed at the
start of `updateRects` (`ratio`) and, for the box 300 x 300, in `sizeHint`. -/
def fitTotal (total : QRect) (aWidth aHeight : Int) : QSize :=
  (QSize.mk total.width total.height).scaleKeepAspectRatio aWidth aHeight

/-- The method `sizeHint()`. -/
def sizeHint (s : State) : QSize := fitTotal s.m_totalRect 300 300

/-- The rectangle `rect` built in the loop of `updateRects` for one monitor. -/
def scaledRect (total : QRect) (ratioX ratioY : Dbl) (margin : Int) (orig : QRect) : QRect :=
  QRect.ofXYWH
    (Dbl.toInt (Dbl.add (Dbl.sub (Dbl.mul (Dbl.ofInt orig.x) ratioX)
      (Dbl.mul (Dbl.ofInt total.left) ratioX)) (Dbl.ofInt margin)))
    (Dbl.toInt (Dbl.add (Dbl.sub (Dbl.mul (Dbl.ofInt orig.y) ratioY)
      (Dbl.mul (Dbl.ofInt total.top) ratioY)) (Dbl.ofInt margin)))
    (Dbl.toInt (Dbl.sub (Dbl.mul (Dbl.ofInt orig.width) ratioX) (Dbl.ofInt (margin * 2))))
    (Dbl.toInt (Dbl.sub (Dbl.mul (Dbl.ofInt orig.height) ratioY) (Dbl.ofInt (margin * 2))))

/-- The loop of `updateRects`, from index `i` on, over the monitors not yet
visited.  A ratio without a finite value (the total rectangle has width or
height `0`) leaves the conversions to `int` undefined: the result is `none`.
The writes `m_screenRects[i]` and `m_cornerRects[i * 4 + x]` are inside the
vectors, which `updateRects` has resized before the loop. -/
def fillRects (total : QRect) (ratioX ratioY : Option Dbl) (margin : Int) :
    List QRect → Nat → List QRect × List QRect → Option (List QRect × List QRect)
  | [], _, acc => some acc
  | orig :: rest, i, (screenRects, cornerRects) => do
    let rx ← ratioX
    let ry ← ratioY
    let rect := scaledRect total rx ry margin orig
    let r := BuildCornerRects rect
    let cornerRects := (List.range 4).foldl
      (fun v x => v.set (i * 4 + x) (r.getD x QRect.null)) cornerRects
    fillRects total ratioX ratioY margin rest (i + 1) (screenRects.set i rect, cornerRects)

/-- The method `updateRects(int aWidth, int aHeight)`. -/
def updateRects (s : State) (aWidth aHeight : Int) : Option State :=
  let screenRects := QVector.resize s.m_screenRects s.m_originalRects.length
  let cornerRects := QVector.resize s.m_cornerRects (s.m_originalRects.length * 4)
  let ratio := fitTotal s.m_totalRect aWidth aHeight
  let ratioX := Dbl.div (Dbl.ofInt ratio.wd) (Dbl.ofInt s.m_totalRect.width)
  let ratioY := Dbl.div (Dbl.ofInt ratio.ht) (Dbl.ofInt s.m_totalRect.height)
  let margin := 4
  (fillRects s.m_totalRect ratioX ratioY margin s.m_originalRects 0
    (screenRects, cornerRects)).map
    fun p => { s with m_screenRects := p.1, m_cornerRects := p.2 }

/-- The constructor `PopupPositionSelector::PopupPositionSelector()`. -/
def construct (desktop : Desktop) : Option State :=
  let s : State :=
    { m_previewWidget := ⟨false, none⟩
      m_previewEnabled := true
      m_position := ⟨0, 0⟩
      m_mousePosition := ⟨-1, -1⟩
      m_totalRect := totalRect desktop.screenGeometry
      m_originalRects := desktop.screenGeometry
      m_screenRects := []
      m_cornerRects := []
      cursor := CursorShape.ArrowCursor
      updates := 0
      emitted := [] }
  let hint := sizeHint s
  updateRects s hint.wd hint.ht

/-! ## Slots and event handlers -/

/-- The slot `setPosition(aPosition)`. -/
def setPosition (s : State) (aPosition : PopupPosition) : State :=
  let s := { s with m_position := aPosition }
  let s := { s with updates := s.updates + 1 }
  { s with emitted := s.emitted ++ [Signal.positionChanged s.m_position] }

/-- The method `position()`. -/
def position (s : State) : PopupPosition := s.m_position

/-- The method `isPreviewEnabled()`. -/
def isPreviewEnabled (s : State) : Bool := s.m_previewEnabled

/-- The method `updateMouse(aNewScreen, aNewCorner, aForce)`.  The preview
window is placed on `r[m_mousePosition.corner]`; the hit test only produces
corners below 4, for any other index the model reads a null rectangle. -/
def updateMouse (desktop : Desktop) (s : State) (aNewScreen aNewCorner : Int)
    (aForce : Bool) : State :=
  if aNewScreen ≠ s.m_mousePosition.screen ∨ aNewCorner ≠ s.m_mousePosition.corner ∨
      aForce = true then
    let s := { s with m_mousePosition := ⟨aNewScreen, aNewCorner⟩ }
    let s := { s with updates := s.updates + 1 }
    let s :=
      if s.m_mousePosition.corner ≥ 0 then
        let s := { s with cursor := CursorShape.PointingHandCursor }
        let s :=
          if s.m_previewEnabled = true then
            let rect := desktop.availableGeometry s.m_mousePosition.screen
            let r := BuildCornerRects rect
            { s with m_previewWidget :=
                { s.m_previewWidget with
                  geometry := some (r.getD s.m_mousePosition.corner.toNat QRect.null) } }
          else s
        { s with m_previewWidget := { s.m_previewWidget with visible := s.m_previewEnabled } }
      else
        let s := { s with m_previewWidget := { s.m_previewWidget with visible := false } }
        { s with cursor := CursorShape.ArrowCursor }
    { s with emitted := s.emitted ++ [Signal.cornerHovered s.m_mousePosition] }
  else s

/-- The slot `enablePreview(aEnabled)`. -/
def enablePreview (desktop : Desktop) (s : State) (aEnabled : Bool) : State :=
  let s := { s with m_previewEnabled := aEnabled }
  updateMouse desktop s s.m_mousePosition.screen s.m_mousePosition.corner true

/-- The inner loop of `mouseMoveEvent` over `r[j]`, from index `j` on: the value
left in `newMouseCorner`. -/
def scanCorners (pos : QPoint) : List QRect → Int → Int
  | [], _ => -1
  | c :: rest, j => if c.contains pos = true then j else scanCorners pos rest (j + 1)

/-- The outer loop of `mouseMoveEvent` over `m_screenRects[i]`, from index `i`
on: the values left in `newMouseScreen` and `newMouseCorner`. -/
def scanScreens (pos : QPoint) : List QRect → Int → PopupPosition
  | [], _ => ⟨-1, -1⟩
  | rect :: rest, i =>
    if rect.contains pos = true then ⟨i, scanCorners pos (BuildCornerRects rect) 0⟩
    else scanScreens pos rest (i + 1)

/-- The hit test of `mouseMoveEvent`: the pair handed to `updateMouse`. -/
def hitTest (screenRects : List QRect) (pos : QPoint) : PopupPosition :=
  scanScreens pos screenRects 0

/-- The handler `mouseMoveEvent`, for an event at `pos`. -/
def mouseMoveEvent (desktop : Desktop) (s : State) (pos : QPoint) : State :=
  let hit := hitTest s.m_screenRects pos
  updateMouse desktop s hit.screen hit.corner false

/-- The handler `leaveEvent`. -/
def leaveEvent (desktop : Desktop) (s : State) : State :=
  updateMouse desktop s (-1) (-1) false

/-- The handler `mouseReleaseEvent`. -/
def mouseReleaseEvent (s : State) : State :=
  if s.m_mousePosition.screen ≥ 0 ∧ s.m_mousePosition.corner ≥ 0 then
    let s := setPosition s s.m_mousePosition
    { s with updates := s.updates + 1 }
  else s

/-- The handler `resizeEvent`, for an event of size `aWidth` x `aHeight`. -/
def resizeEvent (s : State) (aWidth aHeight : Int) : Option State :=
  updateRects s aWidth aHeight

/-- What `paintEvent` draws: the two calls of `drawRects` and the two highlighted
corner rectangles (the texts are left out). -/
structure Painted where
  screens : List QRect
  corners : List QRect
  hovered : Option QRect
  selected : Option QRect
  deriving DecidableEq, Repr

/-- The highlight of the hovered corner in `paintEvent`: `some none` when nothing
is highlighted, `none` when the access to `m_cornerRects` is out of range. -/
def paintHovered (s : State) : Option (Option QRect) :=
  if s.m_mousePosition.screen ≠ s.m_position.screen ∨
      s.m_mousePosition.corner ≠ s.m_position.corner then
    if s.m_mousePosition.screen ≥ 0 then
      if s.m_mousePosition.corner ≥ 0 then
        (QVector.at? s.m_cornerRects
          (s.m_mousePosition.screen * 4 + s.m_mousePosition.corner)).map some
      else some none
    else some none
  else some none

/-- The highlight of the selected corner in `paintEvent`, with the same convention. -/
def paintSelected (s : State) : Option (Option QRect) :=
  if s.m_position.screen ≥ 0 then
    if s.m_position.corner ≥ 0 then
      (QVector.at? s.m_cornerRects (s.m_position.screen * 4 + s.m_position.corner)).map some
    else some none
  else some none

/-- The handler `paintEvent`; `none` when it reads `m_cornerRects` out of range. -/
def paintEvent (s : State) : Option Painted := do
  let hovered ← paintHovered s
  let selected ← paintSelected s
  pure ⟨s.m_screenRects, s.m_cornerRects, hovered, selected⟩

/-! ## The widget as a transition system -/

/-- The events that reach the widget. -/
inductive Event where
  | mouseMove (pos : QPoint)
  | leave
  | mouseRelease
  | resize (aWidth aHeight : Int)
  | setPosition (aPosition : PopupPosition)
  | enablePreview (aEnabled : Bool)
  deriving DecidableEq, Repr

/-- The effect of one event. -/
def step (desktop : Desktop) (s : State) : Event → Option State
  | Event.mouseMove pos => some (mouseMoveEvent desktop s pos)
  | Event.leave => some (leaveEvent desktop s)
  | Event.mouseRelease => some (mouseReleaseEvent s)
  | Event.resize aWidth aHeight => resizeEvent s aWidth aHeight
  | Event.setPosition aPosition => some (setPosition s aPosition)
  | Event.enablePreview aEnabled => some (enablePreview desktop s aEnabled)

/-- The effect of a sequence of events. -/
def run (desktop : Desktop) (s : State) : List Event → Option State
  | [] => some s
  | e :: rest => (step desktop s e).bind fun t => run desktop t rest

/-- The states reached from construction by a sequence of events. -/
def Reachable (desktop : Desktop) (s : State) : Prop :=
  ∃ s0 events, construct desktop = some s0 ∧ run desktop s0 events = some s

/-- A desktop with one monitor of 1920 x 1080 pixels whose taskbar takes the
lowest 40 rows. -/
def singleMonitor : Desktop :=
  { screenGeometry := [QRect.ofXYWH 0 0 1920 1080]
    availableGeometry := fun _ => QRect.ofXYWH 0 0 1920 1040 }

/-- A desktop whose only monitor, of 800 x 600 pixels, has its top-left pixel at
(100, 100). -/
def offsetMonitor : Desktop :=
  { screenGeometry := [QRect.ofXYWH 100 100 800 600]
    availableGeometry := fun _ => QRect.ofXYWH 100 100 800 600 }

/-- The state in which the constructor leaves the widget on `singleMonitor`
(see `construct_singleMonitor`). -/
def singleMonitorInitial : State :=
  { m_previewWidget := ⟨false, none⟩
    m_previewEnabled := true
    m_mousePosition := ⟨-1, -1⟩
    m_position := ⟨0, 0⟩
    m_totalRect := QRect.ofXYWH 0 0 1919 1079
    m_originalRects := [QRect.ofXYWH 0 0 1920 1080]
    m_screenRects := [QRect.ofXYWH 4 4 290 160]
    m_cornerRects :=
      [QRect.ofXYWH 4 4 48 48, QRect.ofXYWH 246 4 48 48,
       QRect.ofXYWH 4 116 48 48, QRect.ofXYWH 246 116 48 48]
    cursor := CursorShape.ArrowCursor
    updates := 0
    emitted := [] }

/-- The hovered position is {-1,-1}, or a screen without a corner, or a screen
with one of its four corners. -/
def HoverValid (s : State) : Prop :=
  s.m_mousePosition = ⟨-1, -1⟩ ∨
  ((0 ≤ s.m_mousePosition.screen ∧ s.m_mousePosition.screen < s.m_screenRects.length) ∧
    s.m_mousePosition.corner = -1) ∨
  ((0 ≤ s.m_mousePosition.screen ∧ s.m_mousePosition.screen < s.m_screenRects.length) ∧
    (0 ≤ s.m_mousePosition.corner ∧ s.m_mousePosition.corner < 4))

/-- There is one screen rectangle per monitor and there are four corner
rectangles per screen rectangle. -/
def LayoutValid (s : State) : Prop :=
  s.m_screenRects.length = s.m_originalRects.length ∧
  s.m_cornerRects.length = 4 * s.m_screenRects.length

/-- A short session on `singleMonitor`: the widget is resized to 200 x 120, the
pointer moves to (10, 10), the button is released and the preview is disabled. -/
def sampleSession : List Event :=
  [Event.resize 200 120, Event.mouseMove ⟨10, 10⟩, Event.mouseRelease, Event.enablePreview false]

/-- The state at the end of `sampleSession` (see `sampleSession_run`). -/
def sampleSessionEnd : State :=
  { m_previewWidget := ⟨false, some (QRect.ofXYWH 0 0 312 312)⟩
    m_previewEnabled := false
    m_mousePosition := ⟨0, 0⟩
    m_position := ⟨0, 0⟩
    m_totalRect := QRect.ofXYWH 0 0 1919 1079
    m_originalRects := [QRect.ofXYWH 0 0 1920 1080]
    m_screenRects := [QRect.ofXYWH 4 4 192 104]
    m_cornerRects :=
      [QRect.ofXYWH 4 4 31 31, QRect.ofXYWH 165 4 31 31,
       QRect.ofXYWH 4 77 31 31, QRect.ofXYWH 165 77 31 31]
    cursor := CursorShape.PointingHandCursor
    updates := 4
    emitted :=
      [Signal.cornerHovered ⟨0, 0⟩, Signal.positionChanged ⟨0, 0⟩, Signal.cornerHovered ⟨0, 0⟩] }


/-! ## Double precision: the product with the corner factor -/


theorem Dbl.bitLen_spec (fuel : Nat) : ∀ p : Nat, p ≤ fuel →
    p < 2 ^ Dbl.bitLen fuel p ∧ (0 < p → 2 ^ Dbl.bitLen fuel p ≤ 2 * p) := by
  induction fuel with
  | zero =>
    intro p hp
    have : p = 0 := by omega
    subst this
    simp [Dbl.bitLen]
  | succ f ih =>
    intro p hp
    by_cases h0 : p = 0
    · subst h0; simp [Dbl.bitLen]
    · have hle : p / 2 ≤ f := by omega
      obtain ⟨h1, h2⟩ := ih (p / 2) hle
      simp only [Dbl.bitLen, h0, if_false, pow_succ]
      refine ⟨by omega, fun _ => ?_⟩
      by_cases hp2 : p / 2 = 0
      · have hp1 : p = 1 := by omega
        subst hp1
        cases f <;> simp [Dbl.bitLen]
      · have := h2 (by omega)
        omega

/-- Rounding keeps the value within half a unit of the dropped bits. -/
theorem Dbl.roundSig_near (p s : Nat) :
    2 * p ≤ 2 * (Dbl.roundSig p s * 2 ^ s) + 2 ^ s ∧
      2 * (Dbl.roundSig p s * 2 ^ s) ≤ 2 * p + 2 ^ s := by
  have hT : 0 < 2 ^ s := Nat.pow_pos (by norm_num)
  have hdiv : 2 ^ s * (p / 2 ^ s) + p % 2 ^ s = p := Nat.div_add_mod p (2 ^ s)
  have hr : p % 2 ^ s < 2 ^ s := Nat.mod_lt _ hT
  unfold Dbl.roundSig
  generalize 2 ^ s = T at *
  generalize p / T = q at *
  generalize p % T = r at *
  obtain ⟨X, hX⟩ : ∃ X, X = T * q := ⟨_, rfl⟩
  have e1 : q * T = X := by rw [hX, Nat.mul_comm]
  have e2 : (q + 1) * T = X + T := by rw [Nat.add_mul, e1, Nat.one_mul]
  rw [← hX] at hdiv
  simp only []
  split_ifs <;> simp only [e1, e2] <;> omega

theorem Dbl.roundSig_cornerFactor (m P s : Nat) (h1 : 1 ≤ m) (h2 : m ≤ 2147483648)
    (hP : P = m * 5404319552844595) (hs : s ≤ 54)
    (hlt : P < 2 ^ (53 + s)) (hge : 2 ^ (53 + s) ≤ 2 * P) :
    Dbl.roundSig P s / 2 ^ (54 - s) = 3 * m / 10 := by
  obtain ⟨n1, n2⟩ := Dbl.roundSig_near P s
  have hT : 0 < 2 ^ s := Nat.pow_pos (by norm_num)
  have hTD : 2 ^ (54 - s) * 2 ^ s = 18014398509481984 := by
    rw [← Nat.pow_add, Nat.sub_add_cancel hs]
  rw [Nat.pow_add] at hlt hge
  norm_num at hlt hge
  generalize Dbl.roundSig P s = q at *
  generalize 2 ^ s = T at *
  generalize 2 ^ (54 - s) = D at *
  obtain ⟨R, hR⟩ : ∃ R, R = q * T := ⟨_, rfl⟩
  rw [← hR] at n1 n2
  have hlow : 3 * m / 10 * D * T < (q + 1) * T := by
    rw [Nat.mul_assoc, hTD, Nat.add_mul, ← hR, Nat.one_mul]
    omega
  have hup : q * T < (3 * m / 10 + 1) * D * T := by
    rw [Nat.mul_assoc, hTD, ← hR]
    omega
  have hlow2 := Nat.lt_of_mul_lt_mul_right hlow
  have hup2 := Nat.lt_of_mul_lt_mul_right hup
  exact Nat.div_eq_of_lt_le (by omega) hup2


theorem Dbl.toInt_round_cornerFactor (m : Nat) (hm : m ≤ 2147483648) (sg : Int)
    (hsg : sg = 1 ∨ sg = -1) :
    Dbl.toInt ⟨sg * ((Dbl.roundSig (m * 5404319552844595)
        (Dbl.bitLen (m * 5404319552844595) (m * 5404319552844595) - 53) : Nat) : Int),
      0 + -54 + ((Dbl.bitLen (m * 5404319552844595) (m * 5404319552844595) - 53 : Nat) : Int)⟩
      = sg * ((3 * m / 10 : Nat) : Int) := by
  rcases Nat.eq_zero_or_pos m with h0 | hpos
  · subst h0
    simp [Dbl.bitLen, Dbl.roundSig, Dbl.toInt]
  · obtain ⟨P, hP⟩ : ∃ P, P = m * 5404319552844595 := ⟨_, rfl⟩
    rw [← hP]
    obtain ⟨hlt, hge⟩ := Dbl.bitLen_spec P P le_rfl
    have hge := hge (by omega)
    generalize Dbl.bitLen P P = L at hlt hge
    have hL1 : 53 ≤ L := by
      by_contra hc
      have : 2 ^ L ≤ 2 ^ 52 := Nat.pow_le_pow_right (by norm_num) (by omega)
      omega
    have hL2 : L ≤ 85 := by
      by_contra hc
      have : 2 ^ 86 ≤ 2 ^ L := Nat.pow_le_pow_right (by norm_num) (by omega)
      omega
    obtain ⟨s, rfl⟩ : ∃ s, L = 53 + s := ⟨L - 53, by omega⟩
    have hs : s ≤ 32 := by omega
    have key := Dbl.roundSig_cornerFactor m P s hpos hm hP (by omega) hlt hge
    simp only [Nat.add_sub_cancel_left]
    unfold Dbl.toInt
    have hneg : ¬ (0 : Int) ≤ 0 + -54 + (s : Int) := by omega
    simp only [hneg, if_false]
    have he : (-(0 + -54 + (s : Int))).toNat = 54 - s := by omega
    rw [he, ← key]
    have hcast : ((2 : Int) ^ (54 - s)) = ((2 ^ (54 - s) : Nat) : Int) := by push_cast; rfl
    rw [hcast]
    rcases hsg with rfl | rfl
    · rw [Int.one_mul, Int.one_mul, Int.ofNat_tdiv]
    · rw [neg_one_mul, neg_one_mul, Int.neg_tdiv, Int.ofNat_tdiv]

theorem cornerFactor_mul (n : Int) (hlo : -2147483648 ≤ n) (hhi : n ≤ 2147483648) :
    Dbl.toInt (Dbl.mul (Dbl.ofInt n) cornerFactor) = Int.tdiv (3 * n) 10 := by
  unfold Dbl.mul Dbl.ofInt cornerFactor Dbl.round
  simp only [Int.natAbs_mul]
  have hM : Int.natAbs 5404319552844595 = 5404319552844595 := rfl
  rw [hM]
  rcases lt_trichotomy n 0 with h | h | h
  · have hs : (n * 5404319552844595).sign = -1 := Int.sign_eq_neg_one_of_neg (by omega)
    rw [hs, Dbl.toInt_round_cornerFactor n.natAbs (by omega) (-1) (Or.inr rfl)]
    have hn : (n.natAbs : Int) = -n := by omega
    have h10 : (10 : Int) = ((10 : Nat) : Int) := rfl
    have h3 : 3 * n = -((3 * n.natAbs : Nat) : Int) := by
      rw [Nat.cast_mul, hn]; simp
    rw [h3, Int.neg_tdiv, h10, ← Int.ofNat_tdiv, neg_one_mul]
  · subst h
    simp [Dbl.bitLen, Dbl.roundSig, Dbl.toInt]
  · have hs : (n * 5404319552844595).sign = 1 := Int.sign_eq_one_of_pos (by omega)
    rw [hs, Dbl.toInt_round_cornerFactor n.natAbs (by omega) 1 (Or.inl rfl)]
    have h10 : (10 : Int) = ((10 : Nat) : Int) := rfl
    have hn : (n.natAbs : Int) = n := by omega
    have h3 : 3 * n = ((3 * n.natAbs : Nat) : Int) := by
      rw [Nat.cast_mul, hn]; simp
    rw [h3, h10, ← Int.ofNat_tdiv, Int.one_mul]

/-! ## The corner rectangles -/

/-- With sides in the range of `int`, `size` is three tenths of the shorter
side, truncated towards zero. -/
theorem cornerSize_eq (R : QRect)
    (hw : -2147483648 ≤ R.width ∧ R.width ≤ 2147483647)
    (hh : -2147483648 ≤ R.height ∧ R.height ≤ 2147483647) :
    cornerSize R = Int.tdiv (3 * min R.width R.height) 10 := by
  unfold cornerSize
  split_ifs with h
  · rw [cornerFactor_mul _ hh.1 (by omega), min_eq_right (by omega)]
  · rw [cornerFactor_mul _ hw.1 (by omega), min_eq_left (by omega)]

theorem tdiv_ten_bounds (a : Int) (ha : 0 ≤ a) :
    0 ≤ Int.tdiv a 10 ∧ 10 * Int.tdiv a 10 ≤ a ∧ a < 10 * Int.tdiv a 10 + 10 := by
  rw [Int.tdiv_eq_ediv ha (by norm_num)]
  omega

/-- For a rectangle of non-negative extent, `size` is not negative and ten
times `size` is at most three times either side. -/
theorem cornerSize_bounds (R : QRect)
    (hw : 0 ≤ R.width ∧ R.width ≤ 2147483647) (hh : 0 ≤ R.height ∧ R.height ≤ 2147483647) :
    0 ≤ cornerSize R ∧ 10 * cornerSize R ≤ 3 * R.width ∧ 10 * cornerSize R ≤ 3 * R.height := by
  rw [cornerSize_eq R ⟨by omega, hw.2⟩ ⟨by omega, hh.2⟩]
  have hm : 0 ≤ 3 * min R.width R.height := by
    rcases le_total R.width R.height with h | h
    · rw [min_eq_left h]; omega
    · rw [min_eq_right h]; omega
  obtain ⟨b1, b2, _⟩ := tdiv_ten_bounds _ hm
  have h1 : min R.width R.height ≤ R.width := min_le_left _ _
  have h2 : min R.width R.height ≤ R.height := min_le_right _ _
  omega

/-- A rectangle whose stored corners are in order contains exactly the pixels
between them. -/
theorem QRect.contains_iff (r : QRect) (p : QPoint) (hx : r.x1 - 1 ≤ r.x2)
    (hy : r.y1 - 1 ≤ r.y2) :
    r.contains p = true ↔ r.x1 ≤ p.x ∧ p.x ≤ r.x2 ∧ r.y1 ≤ p.y ∧ p.y ≤ r.y2 := by
  unfold QRect.contains
  have h1 : ¬ r.x2 < r.x1 - 1 := by omega
  have h2 : ¬ r.y2 < r.y1 - 1 := by omega
  simp only [h1, h2, if_false]
  by_cases a : p.x < r.x1 ∨ p.x > r.x2
  · simp only [a, if_true]
    constructor
    · intro h; exact absurd h (by simp)
    · intro h; omega
  · simp only [a, if_false]
    by_cases b : p.y < r.y1 ∨ p.y > r.y2
    · simp only [b, if_true]
      constructor
      · intro h; exact absurd h (by simp)
      · intro h; omega
    · simp only [b, if_false]
      constructor
      · intro _; omega
      · intro _; trivial

/-- The four rectangles of `BuildCornerRects`, written with their coordinates. -/
theorem BuildCornerRects_eq (R : QRect) :
    BuildCornerRects R =
      [⟨R.x1, R.y1, R.x1 + cornerSize R - 1, R.y1 + cornerSize R - 1⟩,
       ⟨R.x2 - cornerSize R + 1, R.y1, R.x2, R.y1 + cornerSize R - 1⟩,
       ⟨R.x1, R.y2 - cornerSize R + 1, R.x1 + cornerSize R - 1, R.y2⟩,
       ⟨R.x2 - cornerSize R + 1, R.y2 - cornerSize R + 1, R.x2, R.y2⟩] := by
  simp only [BuildCornerRects, QRect.setWidth, QRect.setHeight, QRect.moveTopRight,
    QRect.moveBottomLeft, QRect.moveBottomRight, QRect.moveLeft, QRect.moveRight,
    QRect.moveTop, QRect.moveBottom, QRect.topRight, QRect.bottomLeft, QRect.bottomRight,
    List.cons.injEq, QRect.mk.injEq, and_true, true_and]
  refine ⟨⟨?_, ?_⟩, ⟨?_, ?_⟩, ⟨?_, ?_⟩⟩ <;> omega

/-- C2: for every rectangle R of non-negative width and height (within the range
of `int`), each of the four rectangles of `BuildCornerRects R` lies entirely
inside R (every pixel of it is a pixel of R, and its four edges are within the
edges of R), and when both sides of R are at least 4 no two of the four
rectangles share a point. -/
theorem BuildCornerRects_inside_disjoint (R : QRect)
    (hw : 0 ≤ R.width ∧ R.width ≤ 2147483647) (hh : 0 ≤ R.height ∧ R.height ≤ 2147483647) :
    (∀ c ∈ BuildCornerRects R, ∀ p : QPoint, c.contains p = true → R.contains p = true) ∧
    (∀ c ∈ BuildCornerRects R,
      R.left ≤ c.left ∧ c.right ≤ R.right ∧ R.top ≤ c.top ∧ c.bottom ≤ R.bottom) ∧
    (4 ≤ R.width → 4 ≤ R.height →
      ∀ (i j : Nat) (c d : QRect), i ≠ j →
        (BuildCornerRects R)[i]? = some c → (BuildCornerRects R)[j]? = some d →
        ∀ p : QPoint, ¬ (c.contains p = true ∧ d.contains p = true)) := by
  obtain ⟨s0, s1, s2⟩ := cornerSize_bounds R hw hh
  rw [BuildCornerRects_eq]
  generalize cornerSize R = sz at s0 s1 s2 ⊢
  simp only [QRect.width, QRect.height] at hw hh s1 s2
  refine ⟨?_, ?_, ?_⟩
  · intro c hc p hp
    simp only [List.mem_cons, List.mem_singleton, List.not_mem_nil, or_false] at hc
    rw [QRect.contains_iff R p (by omega) (by omega)]
    rcases hc with rfl | rfl | rfl | rfl <;>
      (rw [QRect.contains_iff _ _ (by dsimp only; omega) (by dsimp only; omega)] at hp
       dsimp only at hp
       omega)
  · intro c hc
    simp only [List.mem_cons, List.mem_singleton, List.not_mem_nil, or_false] at hc
    simp only [QRect.left, QRect.right, QRect.top, QRect.bottom]
    rcases hc with rfl | rfl | rfl | rfl <;> (dsimp only; omega)
  · intro _ _ i j c d hij hc hd p
    have hi : i < 4 := by
      by_contra hcon
      rw [List.getElem?_eq_none (by simp; omega)] at hc
      exact absurd hc (by simp)
    have hj : j < 4 := by
      by_contra hcon
      rw [List.getElem?_eq_none (by simp; omega)] at hd
      exact absurd hd (by simp)
    rintro ⟨hp, hq⟩
    interval_cases i <;> interval_cases j <;>
      first
      | exact absurd rfl hij
      | (simp only [List.getElem?_cons_zero, List.getElem?_cons_succ, Option.some.injEq] at hc hd
         subst hc hd
         rw [QRect.contains_iff _ _ (by dsimp only; omega) (by dsimp only; omega)] at hp hq
         dsimp only at hp hq
         omega)

/-- C8, as amended: for every rectangle R = (x, y, w, h) with w and h in the
range of `int`, `BuildCornerRects R` is a list of exactly four squares of side
`size`, the product `0.3 * min w h` truncated towards zero (which is
`floor (3 * min w h / 10)` when `min w h` is not negative), in the order
0 = top-left (same top-left pixel as R), 1 = top-right (same top-right pixel),
2 = bottom-left (same bottom-left pixel), 3 = bottom-right (same bottom-right
pixel). -/
theorem BuildCornerRects_squares (R : QRect)
    (hw : -2147483648 ≤ R.width ∧ R.width ≤ 2147483647)
    (hh : -2147483648 ≤ R.height ∧ R.height ≤ 2147483647) :
    ∃ d0 d1 d2 d3 : QRect, BuildCornerRects R = [d0, d1, d2, d3] ∧
      (∀ c ∈ [d0, d1, d2, d3],
        c.width = Int.tdiv (3 * min R.width R.height) 10 ∧
        c.height = Int.tdiv (3 * min R.width R.height) 10) ∧
      d0.topLeft = R.topLeft ∧ d1.topRight = R.topRight ∧
      d2.bottomLeft = R.bottomLeft ∧ d3.bottomRight = R.bottomRight ∧
      (0 ≤ min R.width R.height →
        Int.tdiv (3 * min R.width R.height) 10 = Int.fdiv (3 * min R.width R.height) 10) := by
  refine ⟨_, _, _, _, BuildCornerRects_eq R, ?_, rfl, rfl, rfl, rfl, ?_⟩
  · rw [← cornerSize_eq R hw hh]
    intro c hc
    simp only [List.mem_cons, List.mem_singleton, List.not_mem_nil, or_false] at hc
    rcases hc with rfl | rfl | rfl | rfl <;>
      (simp only [QRect.width, QRect.height]; constructor <;> omega)
  · intro h
    exact (Int.fdiv_eq_tdiv (by omega) (by norm_num)).symm

/-- C8 at the rectangle (0, 0, 100, 50): four squares of side 15 in the four corners. -/
theorem BuildCornerRects_squares_witness :
    ((-2147483648 ≤ (QRect.ofXYWH 0 0 100 50).width ∧
        (QRect.ofXYWH 0 0 100 50).width ≤ 2147483647) ∧
      (-2147483648 ≤ (QRect.ofXYWH 0 0 100 50).height ∧
        (QRect.ofXYWH 0 0 100 50).height ≤ 2147483647)) ∧
    ∃ d0 d1 d2 d3 : QRect, BuildCornerRects (QRect.ofXYWH 0 0 100 50) = [d0, d1, d2, d3] ∧
      (∀ c ∈ [d0, d1, d2, d3],
        c.width = Int.tdiv
          (3 * min (QRect.ofXYWH 0 0 100 50).width (QRect.ofXYWH 0 0 100 50).height) 10 ∧
        c.height = Int.tdiv
          (3 * min (QRect.ofXYWH 0 0 100 50).width (QRect.ofXYWH 0 0 100 50).height) 10) ∧
      d0.topLeft = (QRect.ofXYWH 0 0 100 50).topLeft ∧
      d1.topRight = (QRect.ofXYWH 0 0 100 50).topRight ∧
      d2.bottomLeft = (QRect.ofXYWH 0 0 100 50).bottomLeft ∧
      d3.bottomRight = (QRect.ofXYWH 0 0 100 50).bottomRight ∧
      (0 ≤ min (QRect.ofXYWH 0 0 100 50).width (QRect.ofXYWH 0 0 100 50).height →
        Int.tdiv (3 * min (QRect.ofXYWH 0 0 100 50).width (QRect.ofXYWH 0 0 100 50).height) 10
          = Int.fdiv
            (3 * min (QRect.ofXYWH 0 0 100 50).width (QRect.ofXYWH 0 0 100 50).height) 10) :=
  ⟨by decide, BuildCornerRects_squares (QRect.ofXYWH 0 0 100 50) (by decide) (by decide)⟩

/-- C8 as stated fails at the rectangle (4, 4, -2, -5): the four squares have
side -1, while the floor of `0.3 * min (-2) (-5) = -1.5` is -2. -/
theorem BuildCornerRects_floor_counterexample :
    (BuildCornerRects (QRect.ofXYWH 4 4 (-2) (-5))).map QRect.width = [-1, -1, -1, -1] ∧
    (BuildCornerRects (QRect.ofXYWH 4 4 (-2) (-5))).map QRect.height = [-1, -1, -1, -1] ∧
    Int.fdiv (3 * min (QRect.ofXYWH 4 4 (-2) (-5)).width (QRect.ofXYWH 4 4 (-2) (-5)).height) 10
      = -2 := by
  decide

/-- The rectangle (4, 4, -2, -5) is the screen rectangle that `updateRects`
computes when the widget over one monitor of 1920 x 1080 is resized to 5 x 5. -/
theorem negative_screenRect_reached :
    ((construct singleMonitor).bind fun s => resizeEvent s 5 5).map State.m_screenRects
      = some [QRect.ofXYWH 4 4 (-2) (-5)] := by
  decide

/-- C2 at the rectangle (0, 0, 100, 50). -/
theorem BuildCornerRects_inside_disjoint_witness :
    ((0 ≤ (QRect.ofXYWH 0 0 100 50).width ∧ (QRect.ofXYWH 0 0 100 50).width ≤ 2147483647) ∧
      (0 ≤ (QRect.ofXYWH 0 0 100 50).height ∧
        (QRect.ofXYWH 0 0 100 50).height ≤ 2147483647)) ∧
    ((∀ c ∈ BuildCornerRects (QRect.ofXYWH 0 0 100 50), ∀ p : QPoint,
        c.contains p = true → (QRect.ofXYWH 0 0 100 50).contains p = true) ∧
      (∀ c ∈ BuildCornerRects (QRect.ofXYWH 0 0 100 50),
        (QRect.ofXYWH 0 0 100 50).left ≤ c.left ∧ c.right ≤ (QRect.ofXYWH 0 0 100 50).right ∧
        (QRect.ofXYWH 0 0 100 50).top ≤ c.top ∧ c.bottom ≤ (QRect.ofXYWH 0 0 100 50).bottom) ∧
      (4 ≤ (QRect.ofXYWH 0 0 100 50).width → 4 ≤ (QRect.ofXYWH 0 0 100 50).height →
        ∀ (i j : Nat) (c d : QRect), i ≠ j →
          (BuildCornerRects (QRect.ofXYWH 0 0 100 50))[i]? = some c →
          (BuildCornerRects (QRect.ofXYWH 0 0 100 50))[j]? = some d →
          ∀ p : QPoint, ¬ (c.contains p = true ∧ d.contains p = true))) :=
  ⟨by decide, BuildCornerRects_inside_disjoint (QRect.ofXYWH 0 0 100 50) (by decide) (by decide)⟩

/-! ## The total rectangle -/

theorem desktopExtent_foldl (screens : List QRect) : ∀ e0 : Extent,
    ((screens.foldl Extent.visit e0).smallestX ≤ e0.smallestX ∧
      e0.largestX ≤ (screens.foldl Extent.visit e0).largestX ∧
      (screens.foldl Extent.visit e0).smallestY ≤ e0.smallestY ∧
      e0.largestY ≤ (screens.foldl Extent.visit e0).largestY) ∧
    ∀ r ∈ screens,
      (screens.foldl Extent.visit e0).smallestX ≤ r.x ∧
      r.right ≤ (screens.foldl Extent.visit e0).largestX ∧
      (screens.foldl Extent.visit e0).smallestY ≤ r.y ∧
      r.bottom ≤ (screens.foldl Extent.visit e0).largestY := by
  induction screens with
  | nil =>
    intro e0
    exact ⟨⟨le_rfl, le_rfl, le_rfl, le_rfl⟩, fun r hr => absurd hr (List.not_mem_nil r)⟩
  | cons a rest ih =>
    intro e0
    obtain ⟨⟨b1, b2, b3, b4⟩, hall⟩ := ih (e0.visit a)
    simp only [List.foldl_cons]
    have v1 : (e0.visit a).smallestX ≤ e0.smallestX ∧ (e0.visit a).smallestX ≤ a.x := by
      simp only [Extent.visit]; split_ifs <;> omega
    have v2 : e0.largestX ≤ (e0.visit a).largestX ∧ a.right ≤ (e0.visit a).largestX := by
      simp only [Extent.visit]; split_ifs <;> omega
    have v3 : (e0.visit a).smallestY ≤ e0.smallestY ∧ (e0.visit a).smallestY ≤ a.y := by
      simp only [Extent.visit]; split_ifs <;> omega
    have v4 : e0.largestY ≤ (e0.visit a).largestY ∧ a.bottom ≤ (e0.visit a).largestY := by
      simp only [Extent.visit]; split_ifs <;> omega
    refine ⟨⟨by omega, by omega, by omega, by omega⟩, ?_⟩
    intro r hr
    rcases List.mem_cons.mp hr with rfl | hr
    · exact ⟨by omega, by omega, by omega, by omega⟩
    · exact hall r hr

/-- What the constructor computes: the left and top edges of the total
rectangle are at most 0 and at most every left and top edge of a monitor; its
right and bottom edges are one less than a bound of 0 and of every right and
bottom edge of a monitor. -/
theorem totalRect_edges (screens : List QRect) :
    (totalRect screens).left ≤ 0 ∧ (totalRect screens).top ≤ 0 ∧
    -1 ≤ (totalRect screens).right ∧ -1 ≤ (totalRect screens).bottom ∧
    ∀ r ∈ screens,
      (totalRect screens).left ≤ r.left ∧ r.right ≤ (totalRect screens).right + 1 ∧
      (totalRect screens).top ≤ r.top ∧ r.bottom ≤ (totalRect screens).bottom + 1 := by
  obtain ⟨⟨b1, b2, b3, b4⟩, hall⟩ := desktopExtent_foldl screens ⟨0, 0, 0, 0⟩
  simp only [totalRect, desktopExtent, QRect.setRect, QRect.left, QRect.top, QRect.right,
    QRect.bottom]
  dsimp only at b1 b2 b3 b4
  refine ⟨b1, b3, by omega, by omega, ?_⟩
  intro r hr
  obtain ⟨h1, h2, h3, h4⟩ := hall r hr
  simp only [QRect.x, QRect.y, QRect.right, QRect.bottom] at h1 h2 h3 h4
  exact ⟨h1, by omega, h3, by omega⟩

/-- C1 fails for one monitor of 1920 x 1080 at the origin: the constructor sets
`m_totalRect` to (0, 0, 1919, 1079), whose right column is 1918 and whose bottom
row is 1078, so the pixel (1919, 0) of the monitor is outside of it. -/
theorem totalRect_misses_last_column :
    singleMonitor.screenGeometry = [QRect.ofXYWH 0 0 1920 1080] ∧
    (construct singleMonitor).map State.m_totalRect = some (QRect.ofXYWH 0 0 1919 1079) ∧
    (QRect.ofXYWH 0 0 1920 1080).contains ⟨1919, 0⟩ = true ∧
    (QRect.ofXYWH 0 0 1919 1079).contains ⟨1919, 0⟩ = false ∧
    (QRect.ofXYWH 0 0 1920 1080).right = 1919 ∧ (QRect.ofXYWH 0 0 1919 1079).right = 1918 := by
  decide

/-- C7 fails for one monitor of 800 x 600 at (100, 100): the left and top edges of
`m_totalRect` are 0, while the least left edge and the least top edge of the
monitors are 100. -/
theorem totalRect_origin_not_minimum :
    offsetMonitor.screenGeometry = [QRect.ofXYWH 100 100 800 600] ∧
    (construct offsetMonitor).map (fun s => (s.m_totalRect.left, s.m_totalRect.top))
      = some (0, 0) ∧
    (QRect.ofXYWH 100 100 800 600).left = 100 ∧ (QRect.ofXYWH 100 100 800 600).top = 100 := by
  decide

/-! ## The hit test of `mouseMoveEvent` -/

theorem scanCorners_none (pos : QPoint) (l : List QRect) (j : Int)
    (h : ∀ c ∈ l, c.contains pos = false) : scanCorners pos l j = -1 := by
  induction l generalizing j with
  | nil => rfl
  | cons c rest ih =>
    have hc : c.contains pos = false := h c (List.mem_cons_self _ _)
    simp only [scanCorners, hc, Bool.false_eq_true, if_false]
    exact ih (j + 1) fun d hd => h d (List.mem_cons_of_mem _ hd)

theorem scanCorners_first (pos : QPoint) (l : List QRect) (j : Int) (n : Nat) (c : QRect)
    (hn : l[n]? = some c) (hc : c.contains pos = true)
    (hmin : ∀ k < n, ∀ d, l[k]? = some d → d.contains pos = false) :
    scanCorners pos l j = j + n := by
  induction l generalizing j n with
  | nil => simp at hn
  | cons a rest ih =>
    cases n with
    | zero =>
      simp only [List.getElem?_cons_zero, Option.some.injEq] at hn
      subst hn
      simp [scanCorners, hc]
    | succ m =>
      have ha : a.contains pos = false := hmin 0 (Nat.succ_pos m) a (by simp)
      simp only [List.getElem?_cons_succ] at hn
      simp only [scanCorners, ha, Bool.false_eq_true, if_false]
      rw [ih (j + 1) m hn fun k hk d hd => hmin (k + 1) (by omega) d (by simpa using hd)]
      push_cast
      omega

theorem scanScreens_none (pos : QPoint) (l : List QRect) (i : Int)
    (h : ∀ r ∈ l, r.contains pos = false) : scanScreens pos l i = ⟨-1, -1⟩ := by
  induction l generalizing i with
  | nil => rfl
  | cons r rest ih =>
    have hr : r.contains pos = false := h r (List.mem_cons_self _ _)
    simp only [scanScreens, hr, Bool.false_eq_true, if_false]
    exact ih (i + 1) fun d hd => h d (List.mem_cons_of_mem _ hd)

theorem scanScreens_first (pos : QPoint) (l : List QRect) (i : Int) (n : Nat) (r : QRect)
    (hn : l[n]? = some r) (hr : r.contains pos = true)
    (hmin : ∀ k < n, ∀ d, l[k]? = some d → d.contains pos = false) :
    scanScreens pos l i = ⟨i + n, scanCorners pos (BuildCornerRects r) 0⟩ := by
  induction l generalizing i n with
  | nil => simp at hn
  | cons a rest ih =>
    cases n with
    | zero =>
      simp only [List.getElem?_cons_zero, Option.some.injEq] at hn
      subst hn
      simp [scanScreens, hr]
    | succ m =>
      have ha : a.contains pos = false := hmin 0 (Nat.succ_pos m) a (by simp)
      simp only [List.getElem?_cons_succ] at hn
      simp only [scanScreens, ha, Bool.false_eq_true, if_false]
      rw [ih (i + 1) m hn fun k hk d hd => hmin (k + 1) (by omega) d (by simpa using hd)]
      congr 1
      push_cast
      omega

/-- After `updateMouse`, the hovered position is the pair it was called with. -/
theorem updateMouse_mousePosition (desktop : Desktop) (s : State) (a b : Int) (f : Bool) :
    (updateMouse desktop s a b f).m_mousePosition = ⟨a, b⟩ := by
  unfold updateMouse
  by_cases h1 : a ≠ s.m_mousePosition.screen ∨ b ≠ s.m_mousePosition.corner ∨ f = true
  · rw [if_pos h1]
    dsimp only
    split_ifs <;> rfl
  · rw [if_neg h1]
    have ha : a = s.m_mousePosition.screen := by
      by_contra hc; exact h1 (Or.inl hc)
    have hb : b = s.m_mousePosition.corner := by
      by_contra hc; exact h1 (Or.inr (Or.inl hc))
    rw [ha, hb]

/-- C3: the hit test of `mouseMoveEvent` (the pair it hands to `updateMouse`,
which becomes the hovered position) is {-1,-1} if no screen rectangle contains
the point; otherwise it is {i, j}, where i is the least index of a screen
rectangle containing the point and j is the least index of a rectangle of
`BuildCornerRects` of that screen rectangle containing the point, or {i, -1}
if none of the four does. -/
theorem hitTest_spec (desktop : Desktop) (s : State) (pos : QPoint) :
    (mouseMoveEvent desktop s pos).m_mousePosition = hitTest s.m_screenRects pos ∧
    ((∀ r ∈ s.m_screenRects, r.contains pos = false) →
      hitTest s.m_screenRects pos = ⟨-1, -1⟩) ∧
    (∀ (i : Nat) (r : QRect), s.m_screenRects[i]? = some r → r.contains pos = true →
      (∀ k < i, ∀ d, s.m_screenRects[k]? = some d → d.contains pos = false) →
      (hitTest s.m_screenRects pos).screen = i ∧
      ((∀ c ∈ BuildCornerRects r, c.contains pos = false) →
        (hitTest s.m_screenRects pos).corner = -1) ∧
      (∀ (j : Nat) (c : QRect), (BuildCornerRects r)[j]? = some c → c.contains pos = true →
        (∀ k < j, ∀ d, (BuildCornerRects r)[k]? = some d → d.contains pos = false) →
        j < 4 ∧ (hitTest s.m_screenRects pos).corner = j)) := by
  refine ⟨updateMouse_mousePosition _ _ _ _ _, scanScreens_none pos _ 0, ?_⟩
  intro i r hi hr hmin
  have h := scanScreens_first pos s.m_screenRects 0 i r hi hr hmin
  unfold hitTest
  rw [h]
  refine ⟨by simp, fun hnone => scanCorners_none pos _ 0 hnone, ?_⟩
  intro j c hj hc hjmin
  refine ⟨?_, ?_⟩
  · by_contra hcon
    rw [List.getElem?_eq_none (by simp [BuildCornerRects]; omega)] at hj
    exact absurd hj (by simp)
  · simp [scanCorners_first pos _ 0 j c hj hc hjmin]

/-- The constructor on `singleMonitor`: the hint is 300 x 168, the miniature of
the monitor is (4, 4, 290, 160) and its corner squares have side 48. -/
theorem construct_singleMonitor : construct singleMonitor = some singleMonitorInitial := by
  decide

/-- C3 on the constructed widget over `singleMonitor`: the point (250, 10) is in
the only screen rectangle and, of its corner rectangles, first in the one of
index 1; the hit test gives {0, 1}. -/
theorem hitTest_spec_witness :
    (hitTest singleMonitorInitial.m_screenRects ⟨250, 10⟩).screen = ((0 : Nat) : Int) ∧
    (4 > 1 ∧ (hitTest singleMonitorInitial.m_screenRects ⟨250, 10⟩).corner = ((1 : Nat) : Int)) :=
  have h := (hitTest_spec singleMonitor singleMonitorInitial ⟨250, 10⟩).2.2 0
    (QRect.ofXYWH 4 4 290 160) (by decide) (by decide) (by intro k hk; omega)
  ⟨h.1, h.2.2 1 (QRect.ofXYWH 246 4 48 48) (by decide) (by decide)
    (by
      intro k hk d hd
      have hk0 : k = 0 := by omega
      subst hk0
      have hd0 : d = QRect.ofXYWH 4 4 48 48 := by
        have : (BuildCornerRects (QRect.ofXYWH 4 4 290 160))[0]? = some (QRect.ofXYWH 4 4 48 48) := by
          decide
        rw [this] at hd
        exact (Option.some.inj hd).symm
      subst hd0
      decide)⟩

/-! ## Selection -/

/-- C4: in every state and for every position p, `setPosition p` followed by
`position()` returns p, appends to the emitted signals exactly one signal,
`positionChanged p`, and leaves the hovered position and the preview flag as
they were. -/
theorem setPosition_spec (s : State) (p : PopupPosition) :
    position (setPosition s p) = p ∧
    (setPosition s p).emitted = s.emitted ++ [Signal.positionChanged p] ∧
    (setPosition s p).m_mousePosition = s.m_mousePosition ∧
    isPreviewEnabled (setPosition s p) = isPreviewEnabled s :=
  ⟨rfl, rfl, rfl, rfl⟩

/-- `updateMouse` does not touch the selected position and emits no
`positionChanged`: it appends at most one `cornerHovered`. -/
theorem updateMouse_frame (desktop : Desktop) (s : State) (a b : Int) (f : Bool) :
    (updateMouse desktop s a b f).m_position = s.m_position ∧
    ((updateMouse desktop s a b f).emitted = s.emitted ∨
      (updateMouse desktop s a b f).emitted = s.emitted ++ [Signal.cornerHovered ⟨a, b⟩]) ∧
    (updateMouse desktop s a b f).m_screenRects = s.m_screenRects ∧
    (updateMouse desktop s a b f).m_cornerRects = s.m_cornerRects ∧
    (updateMouse desktop s a b f).m_originalRects = s.m_originalRects ∧
    (updateMouse desktop s a b f).m_totalRect = s.m_totalRect := by
  unfold updateMouse
  by_cases h1 : a ≠ s.m_mousePosition.screen ∨ b ≠ s.m_mousePosition.corner ∨ f = true
  · rw [if_pos h1]
    dsimp only
    refine ⟨?_, Or.inr ?_, ?_, ?_, ?_, ?_⟩ <;> (split_ifs <;> rfl)
  · rw [if_neg h1]
    exact ⟨rfl, Or.inl rfl, rfl, rfl, rfl, rfl⟩

/-- C5: a release commits the hovered position (afterwards `position()` is the
hovered position and `positionChanged` of it has been emitted) if and only if
the hovered screen and the hovered corner are both at least 0; otherwise the
release changes neither the selected position nor the emitted signals.  A move
and a leave never change the selected position, nor do they emit
`positionChanged`. -/
theorem mouseReleaseEvent_spec (desktop : Desktop) (s : State) :
    ((position (mouseReleaseEvent s) = s.m_mousePosition ∧
        (mouseReleaseEvent s).emitted = s.emitted ++ [Signal.positionChanged s.m_mousePosition])
      ↔ (s.m_mousePosition.screen ≥ 0 ∧ s.m_mousePosition.corner ≥ 0)) ∧
    (¬ (s.m_mousePosition.screen ≥ 0 ∧ s.m_mousePosition.corner ≥ 0) →
      position (mouseReleaseEvent s) = position s ∧
      (mouseReleaseEvent s).emitted = s.emitted) ∧
    (∀ pos : QPoint, position (mouseMoveEvent desktop s pos) = position s ∧
      ∀ p, Signal.positionChanged p ∈ (mouseMoveEvent desktop s pos).emitted →
        Signal.positionChanged p ∈ s.emitted) ∧
    (position (leaveEvent desktop s) = position s ∧
      ∀ p, Signal.positionChanged p ∈ (leaveEvent desktop s).emitted →
        Signal.positionChanged p ∈ s.emitted) := by
  have frame : ∀ a b f, position (updateMouse desktop s a b f) = position s ∧
      ∀ p, Signal.positionChanged p ∈ (updateMouse desktop s a b f).emitted →
        Signal.positionChanged p ∈ s.emitted := by
    intro a b f
    obtain ⟨h1, h2, _⟩ := updateMouse_frame desktop s a b f
    refine ⟨h1, fun p hp => ?_⟩
    rcases h2 with h2 | h2
    · rwa [h2] at hp
    · rw [h2] at hp
      simpa using hp
  refine ⟨?_, ?_, fun pos => frame _ _ _, frame _ _ _⟩
  · by_cases h : s.m_mousePosition.screen ≥ 0 ∧ s.m_mousePosition.corner ≥ 0
    · simp only [h, and_self, iff_true]
      unfold mouseReleaseEvent
      rw [if_pos h]
      exact ⟨rfl, rfl⟩
    · simp only [h, iff_false]
      unfold mouseReleaseEvent
      rw [if_neg h]
      rintro ⟨_, h2⟩
      have := congrArg List.length h2
      simp at this
  · intro h
    unfold mouseReleaseEvent
    rw [if_neg h]
    exact ⟨rfl, rfl⟩

/-- C5 on the constructed widget over `singleMonitor` after a move to (10, 10),
where the corner {0, 0} is hovered: the release commits it. -/
theorem mouseReleaseEvent_spec_witness :
    ((mouseMoveEvent singleMonitor singleMonitorInitial ⟨10, 10⟩).m_mousePosition.screen ≥ 0 ∧
      (mouseMoveEvent singleMonitor singleMonitorInitial ⟨10, 10⟩).m_mousePosition.corner ≥ 0) ∧
    (position (mouseReleaseEvent (mouseMoveEvent singleMonitor singleMonitorInitial ⟨10, 10⟩))
        = (mouseMoveEvent singleMonitor singleMonitorInitial ⟨10, 10⟩).m_mousePosition ∧
      (mouseReleaseEvent (mouseMoveEvent singleMonitor singleMonitorInitial ⟨10, 10⟩)).emitted
        = (mouseMoveEvent singleMonitor singleMonitorInitial ⟨10, 10⟩).emitted ++
          [Signal.positionChanged
            (mouseMoveEvent singleMonitor singleMonitorInitial ⟨10, 10⟩).m_mousePosition]) :=
  ⟨by decide,
    (mouseReleaseEvent_spec singleMonitor
      (mouseMoveEvent singleMonitor singleMonitorInitial ⟨10, 10⟩)).1.mpr (by decide)⟩

/-! ## Painting -/

/-- C6 fails on the constructed widget over `singleMonitor` after
`setPosition {1, 0}`: `m_cornerRects` has 4 entries, the guards `screen >= 0` and
`corner >= 0` hold, and `paintEvent` reads `m_cornerRects[1 * 4 + 0]`, which is
not an entry of the vector. -/
theorem paintEvent_out_of_range :
    construct singleMonitor = some singleMonitorInitial ∧
    (setPosition singleMonitorInitial ⟨1, 0⟩).m_cornerRects.length = 4 ∧
    (setPosition singleMonitorInitial ⟨1, 0⟩).m_position.screen * 4 +
      (setPosition singleMonitorInitial ⟨1, 0⟩).m_position.corner = 4 ∧
    QVector.at? (setPosition singleMonitorInitial ⟨1, 0⟩).m_cornerRects 4 = none ∧
    paintSelected (setPosition singleMonitorInitial ⟨1, 0⟩) = none ∧
    paintEvent (setPosition singleMonitorInitial ⟨1, 0⟩) = none := by
  decide

/-! ## The aspect-locked fit -/

theorem toInt32_of_range (v : Int) (h0 : 0 ≤ v) (h1 : v ≤ 2147483647) : toInt32 v = v := by
  unfold toInt32
  omega

/-- C9: for a total rectangle of positive width W and height H and a box
(tw, th) with tw, th >= 0 (in the range of `int`), the size (w, h) of the
aspect-locked fit (`ratio` in `updateRects`, and `sizeHint` for the box
300 x 300) fits in the box, touches it in one dimension and keeps the aspect
ratio up to rounding: `|w * H - h * W| < max W H`.  In particular `sizeHint`
never exceeds 300 in width or height. -/
theorem fitTotal_spec (total : QRect) (tw th : Int)
    (hW : 0 < total.width) (hH : 0 < total.height)
    (htw : 0 ≤ tw ∧ tw ≤ 2147483647) (hth : 0 ≤ th ∧ th ≤ 2147483647) :
    ((fitTotal total tw th).wd ≤ tw ∧ (fitTotal total tw th).ht ≤ th) ∧
    ((fitTotal total tw th).wd = tw ∨ (fitTotal total tw th).ht = th) ∧
    |(fitTotal total tw th).wd * total.height - (fitTotal total tw th).ht * total.width|
      < max total.width total.height ∧
    (∀ s : State, s.m_totalRect = total →
      sizeHint s = fitTotal total 300 300 ∧ (sizeHint s).wd ≤ 300 ∧ (sizeHint s).ht ≤ 300) := by
  have key : ∀ a b : Int, 0 ≤ a → a ≤ 2147483647 → 0 ≤ b → b ≤ 2147483647 →
      ((fitTotal total a b).wd ≤ a ∧ (fitTotal total a b).ht ≤ b) ∧
      ((fitTotal total a b).wd = a ∨ (fitTotal total a b).ht = b) ∧
      |(fitTotal total a b).wd * total.height - (fitTotal total a b).ht * total.width|
        < max total.width total.height := by
    intro a b ha0 ha1 hb0 hb1
    unfold fitTotal QSize.scaleKeepAspectRatio
    dsimp only
    generalize total.width = W at hW ⊢
    generalize total.height = H at hH ⊢
    have hWmax : W ≤ max W H := le_max_left _ _
    have hHmax : H ≤ max W H := le_max_right _ _
    have hne : ¬ (W = 0 ∨ H = 0) := by omega
    simp only [hne, if_false]
    have hbW : 0 ≤ b * W := Int.mul_nonneg hb0 (by omega)
    have haH : 0 ≤ a * H := Int.mul_nonneg ha0 (by omega)
    rw [Int.tdiv_eq_ediv hbW (by omega), Int.tdiv_eq_ediv haH (by omega)]
    have q1 : 0 ≤ b * W / H := Int.ediv_nonneg hbW (by omega)
    have q2 : 0 ≤ a * H / W := Int.ediv_nonneg haH (by omega)
    have m1 := Int.emod_add_ediv (b * W) H
    have m2 := Int.emod_add_ediv (a * H) W
    have r1 := Int.emod_nonneg (b * W) (by omega : H ≠ 0)
    have r2 := Int.emod_nonneg (a * H) (by omega : W ≠ 0)
    have r3 := Int.emod_lt_of_pos (b * W) hH
    have r4 := Int.emod_lt_of_pos (a * H) hW
    by_cases hle : b * W / H ≤ a
    · simp only [hle, if_true]
      rw [toInt32_of_range _ q1 (by omega)]
      refine ⟨⟨hle, le_rfl⟩, Or.inr trivial, ?_⟩
      rw [abs_lt]
      have e : b * W / H * H = H * (b * W / H) := Int.mul_comm _ _
      constructor <;> omega
    · simp only [hle, if_false]
      have hlt : a * H / W < b := by
        by_contra hcon
        have h1 : b * W ≤ a * H / W * W := Int.mul_le_mul_of_nonneg_right (by omega) (by omega)
        have h2 : (a + 1) * H ≤ b * W / H * H :=
          Int.mul_le_mul_of_nonneg_right (by omega) (by omega)
        have e1 : a * H / W * W = W * (a * H / W) := Int.mul_comm _ _
        have e2 : b * W / H * H = H * (b * W / H) := Int.mul_comm _ _
        have e3 : (a + 1) * H = a * H + H := by ring
        omega
      rw [toInt32_of_range _ q2 (by omega)]
      refine ⟨⟨le_rfl, by omega⟩, Or.inl trivial, ?_⟩
      rw [abs_lt]
      have e : a * H / W * W = W * (a * H / W) := Int.mul_comm _ _
      constructor <;> omega
  obtain ⟨k1, k2, k3⟩ := key tw th htw.1 htw.2 hth.1 hth.2
  refine ⟨k1, k2, k3, ?_⟩
  intro s hs
  obtain ⟨⟨b1, b2⟩, _, _⟩ := key 300 300 (by norm_num) (by norm_num) (by norm_num) (by norm_num)
  unfold sizeHint
  rw [hs]
  exact ⟨rfl, b1, b2⟩

/-- C9 on the total rectangle (0, 0, 1919, 1079) of `singleMonitor` and the box
300 x 300. -/
theorem fitTotal_spec_witness :
    ((0 < (QRect.ofXYWH 0 0 1919 1079).width ∧ 0 < (QRect.ofXYWH 0 0 1919 1079).height) ∧
      ((0 : Int) ≤ 300 ∧ (300 : Int) ≤ 2147483647)) ∧
    (((fitTotal (QRect.ofXYWH 0 0 1919 1079) 300 300).wd ≤ 300 ∧
        (fitTotal (QRect.ofXYWH 0 0 1919 1079) 300 300).ht ≤ 300) ∧
      ((fitTotal (QRect.ofXYWH 0 0 1919 1079) 300 300).wd = 300 ∨
        (fitTotal (QRect.ofXYWH 0 0 1919 1079) 300 300).ht = 300) ∧
      |(fitTotal (QRect.ofXYWH 0 0 1919 1079) 300 300).wd * (QRect.ofXYWH 0 0 1919 1079).height -
          (fitTotal (QRect.ofXYWH 0 0 1919 1079) 300 300).ht *
            (QRect.ofXYWH 0 0 1919 1079).width|
        < max (QRect.ofXYWH 0 0 1919 1079).width (QRect.ofXYWH 0 0 1919 1079).height ∧
      (∀ s : State, s.m_totalRect = QRect.ofXYWH 0 0 1919 1079 →
        sizeHint s = fitTotal (QRect.ofXYWH 0 0 1919 1079) 300 300 ∧
        (sizeHint s).wd ≤ 300 ∧ (sizeHint s).ht ≤ 300)) :=
  ⟨by decide,
    fitTotal_spec (QRect.ofXYWH 0 0 1919 1079) 300 300 (by decide) (by decide) (by decide)
      (by decide)⟩

/-! ## The invariant of the hovered position -/

theorem scanCorners_range (pos : QPoint) (l : List QRect) (j : Int) :
    scanCorners pos l j = -1 ∨ (j ≤ scanCorners pos l j ∧ scanCorners pos l j < j + l.length) := by
  induction l generalizing j with
  | nil => exact Or.inl rfl
  | cons c rest ih =>
    unfold scanCorners
    split_ifs
    · right
      simp only [List.length_cons]
      push_cast
      omega
    · rcases ih (j + 1) with h | h
      · exact Or.inl h
      · right
        simp only [List.length_cons]
        push_cast
        omega

theorem BuildCornerRects_length (R : QRect) : (BuildCornerRects R).length = 4 := rfl

theorem scanScreens_range (pos : QPoint) (l : List QRect) (i : Int) :
    scanScreens pos l i = ⟨-1, -1⟩ ∨
    ((i ≤ (scanScreens pos l i).screen ∧ (scanScreens pos l i).screen < i + l.length) ∧
      ((scanScreens pos l i).corner = -1 ∨
        (0 ≤ (scanScreens pos l i).corner ∧ (scanScreens pos l i).corner < 4))) := by
  induction l generalizing i with
  | nil => exact Or.inl rfl
  | cons r rest ih =>
    unfold scanScreens
    split_ifs
    · right
      refine ⟨?_, ?_⟩
      · simp only [List.length_cons]
        push_cast
        omega
      · have h := scanCorners_range pos (BuildCornerRects r) 0
        rw [BuildCornerRects_length] at h
        rcases h with h | h
        · exact Or.inl h
        · right
          dsimp only
          push_cast at h
          omega
    · rcases ih (i + 1) with h | h
      · exact Or.inl h
      · right
        simp only [List.length_cons]
        push_cast
        omega

theorem QVector.resize_length (v : List QRect) (n : Nat) : (QVector.resize v n).length = n := by
  unfold QVector.resize
  simp only [List.length_append, List.length_take, List.length_replicate]
  omega

theorem fillRects_length (total : QRect) (ratioX ratioY : Option Dbl) (margin : Int)
    (rest : List QRect) : ∀ (i : Nat) (acc out : List QRect × List QRect),
    fillRects total ratioX ratioY margin rest i acc = some out →
      out.1.length = acc.1.length ∧ out.2.length = acc.2.length := by
  induction rest with
  | nil =>
    intro i acc out h
    simp only [fillRects, Option.some.injEq] at h
    subst h
    exact ⟨rfl, rfl⟩
  | cons orig rest ih =>
    intro i acc out h
    obtain ⟨sr, cr⟩ := acc
    cases hx : ratioX with
    | none => simp [fillRects, hx] at h
    | some rx =>
      cases hy : ratioY with
      | none => simp [fillRects, hx, hy] at h
      | some ry =>
        subst hx hy
        simp only [fillRects, Option.bind_eq_bind, Option.some_bind] at h
        obtain ⟨h1, h2⟩ := ih _ _ _ h
        refine ⟨?_, ?_⟩
        · rw [h1]; simp
        · rw [h2]; simp [List.range, List.range.loop]

/-- The method `updateRects` leaves one screen rectangle per monitor and four
corner rectangles per screen rectangle, and changes nothing else. -/
theorem updateRects_spec (s t : State) (w h : Int) (hu : updateRects s w h = some t) :
    t.m_screenRects.length = s.m_originalRects.length ∧
    t.m_cornerRects.length = 4 * t.m_screenRects.length ∧
    t.m_originalRects = s.m_originalRects ∧
    t.m_mousePosition = s.m_mousePosition ∧
    t.m_position = s.m_position ∧
    t.m_totalRect = s.m_totalRect := by
  unfold updateRects at hu
  simp only [Option.map_eq_some'] at hu
  obtain ⟨out, hout, rfl⟩ := hu
  obtain ⟨h1, h2⟩ := fillRects_length _ _ _ _ _ _ _ _ hout
  simp only [QVector.resize_length] at h1 h2
  refine ⟨h1, ?_, rfl, rfl, rfl, rfl⟩
  dsimp only
  omega

theorem hoverValid_of_eq (s t : State) (hm : t.m_mousePosition = s.m_mousePosition)
    (hr : t.m_screenRects = s.m_screenRects) (h : HoverValid s) : HoverValid t := by
  unfold HoverValid at h ⊢
  rw [hm, hr]
  exact h

theorem construct_valid (desktop : Desktop) (s : State) (h : construct desktop = some s) :
    HoverValid s ∧ LayoutValid s ∧ s.m_originalRects = desktop.screenGeometry := by
  unfold construct at h
  obtain ⟨h1, h2, h3, h4, _, _⟩ := updateRects_spec _ _ _ _ h
  refine ⟨Or.inl h4, ⟨?_, h2⟩, h3⟩
  rw [h1, h3]

theorem step_valid (desktop : Desktop) (s t : State) (e : Event) (h : step desktop s e = some t)
    (hv : HoverValid s) (hl : LayoutValid s) :
    HoverValid t ∧ LayoutValid t ∧ t.m_originalRects = s.m_originalRects := by
  cases e with
  | mouseMove pos =>
    simp only [step, Option.some.injEq] at h
    subst h
    obtain ⟨_, _, f1, f2, f3, _⟩ :=
      updateMouse_frame desktop s (hitTest s.m_screenRects pos).screen
        (hitTest s.m_screenRects pos).corner false
    have hm := updateMouse_mousePosition desktop s (hitTest s.m_screenRects pos).screen
      (hitTest s.m_screenRects pos).corner false
    refine ⟨?_, ?_, f3⟩
    · unfold HoverValid mouseMoveEvent
      dsimp only
      rw [hm, f1]
      have hr := scanScreens_range pos s.m_screenRects 0
      unfold hitTest
      rcases hr with hr | ⟨hr1, hr2 | hr2⟩
      · left; rw [hr]
      · right; left
        dsimp only
        exact ⟨by omega, hr2⟩
      · right; right
        dsimp only
        exact ⟨by omega, hr2⟩
    · unfold LayoutValid mouseMoveEvent
      dsimp only
      rw [f1, f2, f3]
      exact hl
  | leave =>
    simp only [step, Option.some.injEq] at h
    subst h
    obtain ⟨_, _, f1, f2, f3, _⟩ := updateMouse_frame desktop s (-1) (-1) false
    refine ⟨Or.inl (updateMouse_mousePosition desktop s (-1) (-1) false), ?_, f3⟩
    unfold LayoutValid leaveEvent
    rw [f1, f2, f3]
    exact hl
  | mouseRelease =>
    simp only [step, Option.some.injEq] at h
    subst h
    unfold mouseReleaseEvent
    split_ifs
    · exact ⟨hoverValid_of_eq s _ rfl rfl hv, hl, rfl⟩
    · exact ⟨hv, hl, rfl⟩
  | resize aWidth aHeight =>
    simp only [step, resizeEvent] at h
    obtain ⟨h1, h2, h3, h4, _, _⟩ := updateRects_spec _ _ _ _ h
    refine ⟨?_, ⟨by rw [h1, h3], h2⟩, h3⟩
    unfold HoverValid at hv ⊢
    rw [h4, h1, ← hl.1]
    exact hv
  | setPosition aPosition =>
    simp only [step, Option.some.injEq] at h
    subst h
    exact ⟨hoverValid_of_eq s _ rfl rfl hv, hl, rfl⟩
  | enablePreview aEnabled =>
    simp only [step, Option.some.injEq] at h
    subst h
    unfold enablePreview
    dsimp only
    obtain ⟨_, _, f1, f2, f3, _⟩ :=
      updateMouse_frame desktop { s with m_previewEnabled := aEnabled }
        s.m_mousePosition.screen s.m_mousePosition.corner true
    have hm := updateMouse_mousePosition desktop { s with m_previewEnabled := aEnabled }
      s.m_mousePosition.screen s.m_mousePosition.corner true
    refine ⟨?_, ?_, f3⟩
    · unfold HoverValid at hv ⊢
      rw [hm, f1]
      exact hv
    · unfold LayoutValid
      rw [f1, f2, f3]
      exact hl

theorem run_valid (desktop : Desktop) (events : List Event) : ∀ (s t : State),
    run desktop s events = some t → HoverValid s → LayoutValid s →
    HoverValid t ∧ LayoutValid t ∧ t.m_originalRects = s.m_originalRects := by
  induction events with
  | nil =>
    intro s t h hv hl
    simp only [run, Option.some.injEq] at h
    subst h
    exact ⟨hv, hl, rfl⟩
  | cons e rest ih =>
    intro s t h hv hl
    simp only [run, Option.bind_eq_some] at h
    obtain ⟨u, hu, hrest⟩ := h
    obtain ⟨v1, l1, o1⟩ := step_valid desktop s u e hu hv hl
    obtain ⟨v2, l2, o2⟩ := ih u t hrest v1 l1
    exact ⟨v2, l2, o2.trans o1⟩

/-- C10: in every state reached from construction by pointer-move,
pointer-leave, pointer-release, resize, `setPosition` and `enablePreview`
events, the hovered position is {-1,-1}, or {s,-1} with 0 <= s < screen count,
or {s,c} with 0 <= s < screen count and 0 <= c < 4; there is one screen
rectangle per monitor and `m_cornerRects` holds exactly 4 entries per screen
rectangle; so the lookup of `paintEvent` at index s*4+c for the hovered corner
is in range. -/
theorem reachable_hover_valid (desktop : Desktop) (s : State) (h : Reachable desktop s) :
    (s.m_mousePosition = ⟨-1, -1⟩ ∨
      ((0 ≤ s.m_mousePosition.screen ∧ s.m_mousePosition.screen < s.m_screenRects.length) ∧
        s.m_mousePosition.corner = -1) ∨
      ((0 ≤ s.m_mousePosition.screen ∧ s.m_mousePosition.screen < s.m_screenRects.length) ∧
        (0 ≤ s.m_mousePosition.corner ∧ s.m_mousePosition.corner < 4))) ∧
    s.m_screenRects.length = desktop.screenGeometry.length ∧
    s.m_cornerRects.length = 4 * s.m_screenRects.length ∧
    (0 ≤ s.m_mousePosition.corner →
      0 ≤ s.m_mousePosition.screen * 4 + s.m_mousePosition.corner ∧
      s.m_mousePosition.screen * 4 + s.m_mousePosition.corner < s.m_cornerRects.length) ∧
    paintHovered s ≠ none := by
  obtain ⟨s0, events, h0, hrun⟩ := h
  obtain ⟨v0, l0, o0⟩ := construct_valid desktop s0 h0
  obtain ⟨hv, hl, ho⟩ := run_valid desktop events s0 s hrun v0 l0
  have hidx : 0 ≤ s.m_mousePosition.corner →
      0 ≤ s.m_mousePosition.screen * 4 + s.m_mousePosition.corner ∧
      s.m_mousePosition.screen * 4 + s.m_mousePosition.corner < s.m_cornerRects.length := by
    intro hc
    rw [hl.2]
    rcases hv with hv | hv | hv
    · rw [hv] at hc
      exact absurd hc (by decide)
    · omega
    · push_cast
      omega
  refine ⟨hv, by rw [hl.1, ho, o0], hl.2, hidx, ?_⟩
  unfold paintHovered
  split_ifs with c1 c2 c3
  · obtain ⟨i1, i2⟩ := hidx c3
    unfold QVector.at?
    rw [if_pos ⟨i1, i2⟩]
    have hlt : (s.m_mousePosition.screen * 4 + s.m_mousePosition.corner).toNat
        < s.m_cornerRects.length := by omega
    simp [List.get?_eq_get hlt, hlt]
  · simp
  · simp
  · simp

set_option maxRecDepth 8000 in
/-- The run of `sampleSession` from the constructed widget over `singleMonitor`. -/
theorem sampleSession_run :
    run singleMonitor singleMonitorInitial sampleSession = some sampleSessionEnd := by
  decide

/-- C10 at the end of `sampleSession`, where the corner {0, 0} is hovered. -/
theorem reachable_hover_valid_witness :
    Reachable singleMonitor sampleSessionEnd ∧
    ((sampleSessionEnd.m_mousePosition = ⟨-1, -1⟩ ∨
      ((0 ≤ sampleSessionEnd.m_mousePosition.screen ∧
          sampleSessionEnd.m_mousePosition.screen < sampleSessionEnd.m_screenRects.length) ∧
        sampleSessionEnd.m_mousePosition.corner = -1) ∨
      ((0 ≤ sampleSessionEnd.m_mousePosition.screen ∧
          sampleSessionEnd.m_mousePosition.screen < sampleSessionEnd.m_screenRects.length) ∧
        (0 ≤ sampleSessionEnd.m_mousePosition.corner ∧
          sampleSessionEnd.m_mousePosition.corner < 4))) ∧
    sampleSessionEnd.m_screenRects.length = singleMonitor.screenGeometry.length ∧
    sampleSessionEnd.m_cornerRects.length = 4 * sampleSessionEnd.m_screenRects.length ∧
    (0 ≤ sampleSessionEnd.m_mousePosition.corner →
      0 ≤ sampleSessionEnd.m_mousePosition.screen * 4 + sampleSessionEnd.m_mousePosition.corner ∧
      sampleSessionEnd.m_mousePosition.screen * 4 + sampleSessionEnd.m_mousePosition.corner
        < sampleSessionEnd.m_cornerRects.length) ∧
    paintHovered sampleSessionEnd ≠ none) :=
  have hr : Reachable singleMonitor sampleSessionEnd :=
    ⟨singleMonitorInitial, sampleSession, construct_singleMonitor, sampleSession_run⟩
  ⟨hr, reachable_hover_valid singleMonitor sampleSessionEnd hr⟩

end PopupPositionSelector
